import Mathlib

/-!
Verification of the auction lifecycle state machine and bid-admission
protocol of the `Sistema_Leilao` repository (`src/models.py`,
`src/sistema.py`), as a shallow embedding in Lean 4.

Embedding conventions:
* Python `datetime` values become `Int` timestamps (only their total order
  is ever used by the code).
* Python `float` bid amounts become `Rat` (only comparisons and positivity
  are used; no rounding-sensitive arithmetic occurs in the modelled code).
* Python exceptions become explicit error values (`Except`, or an error
  field in a result record).
* In-place mutation becomes state passing: each method that mutates the
  `Leilao` object returns the new `Leilao` value.
* `datetime.now()` becomes an explicit `agora : Int` parameter threaded to
  every operation that reads the clock.
* The fields `_lances`, `_estado`, `_ganhador` of the Python class keep
  their underscored names; the like-named read-only properties
  (`lances`, `estado`, `ganhador`) are separate functions.
-/

/-- Embeds `Participante` (models.py). Only the fields the auction core
reads are kept: `cpf` and `email` (the two identity keys used by
`__eq__`), the display name, and the `_possui_lances` flag set by
`marcar_como_ofertante`. -/
structure Participante where
  nome : String
  cpf : String
  email : String
  possui_lances : Bool
deriving Repr, DecidableEq

/-- Embeds `Participante.__eq__`: equality holds if the cpf keys match or
the email keys match. -/
def Participante.peq (p q : Participante) : Bool :=
  p.cpf == q.cpf || p.email == q.email

/-- Embeds `Participante.marcar_como_ofertante` (sets `_possui_lances`). -/
def Participante.marcar_como_ofertante (p : Participante) : Participante :=
  { p with possui_lances := true }

/-- Embeds `Lance` (models.py): an immutable (bidder, amount) pair. -/
structure Lance where
  participante : Participante
  valor : Rat
deriving Repr, DecidableEq

/-- Embeds the `EstadoLeilao` enum (models.py). -/
inductive EstadoLeilao where
  | INATIVO
  | ABERTO
  | FINALIZADO
  | EXPIRADO
deriving Repr, DecidableEq

/-- Embeds the mutable state of a `Leilao` object (models.py). -/
structure Leilao where
  nome : String
  lance_minimo : Rat
  data_inicio : Int
  data_termino : Int
  _lances : List Lance
  _estado : EstadoLeilao
  _ganhador : Option Participante
deriving Repr, DecidableEq

/-- Embeds Python `max(lances, key=lambda l: l.valor)`: left fold that
replaces the current best only on a strictly greater key, hence returns
the first maximal element; `none` on the empty list (Python raises). -/
def maxLanceValor : List Lance → Option Lance
  | [] => none
  | x :: xs => some (xs.foldl (fun best b => if b.valor > best.valor then b else best) x)

/-- Embeds Python `min(lances, key=lambda l: l.valor)`: left fold that
replaces the current best only on a strictly smaller key, hence returns
the first minimal element; `none` on the empty list. -/
def minLanceValor : List Lance → Option Lance
  | [] => none
  | x :: xs => some (xs.foldl (fun best b => if b.valor < best.valor then b else best) x)

namespace Leilao

/-- Embeds `Leilao.atualizar_estado` (models.py lines 265-298), with the
clock `datetime.now()` passed in as `agora`. -/
def atualizar_estado (l : Leilao) (agora : Int) : Leilao :=
  if l._estado = .FINALIZADO then l
  else if agora < l.data_inicio then { l with _estado := .INATIVO }
  else if l.data_inicio ≤ agora ∧ agora < l.data_termino then { l with _estado := .ABERTO }
  else if agora ≥ l.data_termino then
    if l._lances ≠ [] then
      match maxLanceValor l._lances with
      | some maior => { l with _estado := .FINALIZADO, _ganhador := some maior.participante }
      | none => { l with _estado := .FINALIZADO }
    else { l with _estado := .EXPIRADO }
  else l

/-- Embeds the `estado` property: re-derives the state, then reads it. -/
def estado (l : Leilao) (agora : Int) : EstadoLeilao :=
  (l.atualizar_estado agora)._estado

/-- Embeds the `lances` property: a copy of `_lances` sorted ascending by
`valor`. Python `sorted` is a stable sort; so is `List.mergeSort`. -/
def lances (l : Leilao) : List Lance :=
  l._lances.mergeSort (fun a b => a.valor ≤ b.valor)

/-- Embeds the `ultimo_lance` property: `_lances[-1]` or `None`. -/
def ultimo_lance (l : Leilao) : Option Lance :=
  l._lances.getLast?

/-- Embeds the `maior_lance` property. -/
def maior_lance (l : Leilao) : Option Lance :=
  maxLanceValor l._lances

/-- Embeds the `menor_lance` property. -/
def menor_lance (l : Leilao) : Option Lance :=
  minLanceValor l._lances

/-- Embeds the `ganhador` property: re-derives the state, then returns
`_ganhador` when the state is FINALIZADO and `None` otherwise. -/
def ganhador (l : Leilao) (agora : Int) : Option Participante :=
  let l' := l.atualizar_estado agora
  if l'._estado = .FINALIZADO then l'._ganhador else none

/-- Embeds `Leilao._pode_receber_lance`. The `self.estado` read inside it
re-derives the state from the clock, so `agora` is a parameter. -/
def pode_receber_lance (l : Leilao) (agora : Int)
    (participante : Participante) (valor : Rat) : Bool :=
  if l.estado agora ≠ .ABERTO then false
  else if valor < l.lance_minimo then false
  else if l._lances = [] then true
  else match l._lances.getLast? with
    | none => true
    | some ultimo =>
      if valor ≤ ultimo.valor then false
      else if participante.peq ultimo.participante then false
      else true

end Leilao

/-- The reason carried by a `LanceInvalido` error in `propor_lance`
(the four possible values of the Python `motivo` string). -/
inductive Motivo where
  | desconhecido
  | abaixoDoMinimo
  | naoMaiorQueUltimo
  | doisLancesSeguidos
deriving Repr, DecidableEq

/-- The three exception kinds `propor_lance` can raise:
`LeilaoInvalido` (whose message names the current state), `TypeError`
(argument not a `Lance`), and `LanceInvalido` (with its reason). -/
inductive ErroLance where
  | leilaoInvalido (estadoAtual : EstadoLeilao)
  | typeError
  | lanceInvalido (motivo : Motivo)
deriving Repr, DecidableEq

/-- Result of a `propor_lance` call: the auction afterwards (the Python
method mutates `self` even on failure, via `atualizar_estado`), the bid
object afterwards (its participant is flagged on success), and the
raised exception, if any. -/
structure ResultadoLance where
  leilao : Leilao
  lanceDepois : Option Lance
  erro : Option ErroLance
deriving Repr, DecidableEq

namespace Leilao

/-- Embeds `Leilao.propor_lance` (models.py lines 234-263). The argument
is `Option Lance`: `none` models an object that is not a `Lance` instance
(rejected by the `isinstance` check, after the state check). -/
def propor_lance (l : Leilao) (agora : Int) (lanceArg : Option Lance) : ResultadoLance :=
  let l := l.atualizar_estado agora
  if l.estado agora ≠ .ABERTO then
    ⟨l, lanceArg, some (.leilaoInvalido (l.estado agora))⟩
  else match lanceArg with
  | none => ⟨l, none, some .typeError⟩
  | some lance =>
    if ¬ l.pode_receber_lance agora lance.participante lance.valor then
      let motivo : Motivo :=
        if lance.valor < l.lance_minimo then .abaixoDoMinimo
        else if l._lances ≠ [] then
          match l._lances.getLast? with
          | none => .desconhecido
          | some ultimo =>
            if lance.valor ≤ ultimo.valor then .naoMaiorQueUltimo
            else if lance.participante.peq ultimo.participante then .doisLancesSeguidos
            else .desconhecido
        else .desconhecido
      ⟨l, some lance, some (.lanceInvalido motivo)⟩
    else
      let lance' := { lance with participante := lance.participante.marcar_como_ofertante }
      ⟨{ l with _lances := l._lances ++ [lance'] }, some lance', none⟩

/-- Embeds the `pode_ser_alterado_ou_excluido` property. -/
def pode_ser_alterado_ou_excluido (l : Leilao) (agora : Int) : Bool :=
  l.estado agora = .INATIVO || l.estado agora = .EXPIRADO

end Leilao

/-- Embeds `Leilao.__init__` (models.py lines 149-178): validates the
arguments, raising `ValueError` (here `Except.error`) on bad input, then
builds the object and derives its initial state from the clock. The
Python `isinstance(..., datetime)` checks always pass here because the
embedding's timestamps are total (`Int`). -/
def Leilao.criar (nome : String) (lance_minimo : Rat)
    (data_inicio data_termino : Int) (agora : Int) : Except String Leilao :=
  if nome = "" then .error "Nome do leilão inválido."
  else if lance_minimo ≤ 0 then .error "Lance mínimo deve ser positivo."
  else if data_inicio ≥ data_termino then
    .error "Data de início deve ser anterior à data de término."
  else .ok (Leilao.atualizar_estado
    { nome := nome, lance_minimo := lance_minimo, data_inicio := data_inicio,
      data_termino := data_termino, _lances := [], _estado := .INATIVO,
      _ganhador := none } agora)

/-- Embeds the per-auction part of `SistemaLeiloes.alterar_leilao`
(sistema.py lines 73-107): re-derives the state via the
`pode_ser_alterado_ou_excluido` property, rejects unless the state is
INATIVO or EXPIRADO, merges the optional new values, re-validates them,
and on success writes them back and re-derives the state again. The
registry-level checks (name lookup and name uniqueness) concern the
registry, not the single auction, and are outside this embedding. -/
def alterar_leilao (l : Leilao) (novo_nome : Option String)
    (novo_lance_minimo : Option Rat) (nova_data_inicio : Option Int)
    (nova_data_termino : Option Int) (agora : Int) : Except String Leilao :=
  let l := l.atualizar_estado agora
  if ¬ l.pode_ser_alterado_ou_excluido agora then
    .error "Leilão não pode ser alterado."
  else
    let temp_nome := novo_nome.getD l.nome
    let temp_lance_minimo := novo_lance_minimo.getD l.lance_minimo
    let temp_data_inicio := nova_data_inicio.getD l.data_inicio
    let temp_data_termino := nova_data_termino.getD l.data_termino
    if temp_nome = "" then .error "Novo nome do leilão inválido."
    else if temp_lance_minimo ≤ 0 then .error "Novo lance mínimo deve ser positivo."
    else if temp_data_inicio ≥ temp_data_termino then
      .error "Nova data de início deve ser anterior à nova data de término."
    else
      let l2 := { l with
                    nome := temp_nome, lance_minimo := temp_lance_minimo,
                    data_inicio := temp_data_inicio, data_termino := temp_data_termino }
      .ok (l2.atualizar_estado agora)

/-! ## Helper lemmas about `atualizar_estado` -/

theorem atualizar_estado_lances (l : Leilao) (agora : Int) :
    (l.atualizar_estado agora)._lances = l._lances := by
  unfold Leilao.atualizar_estado
  repeat' split <;> try rfl

theorem atualizar_estado_nome (l : Leilao) (agora : Int) :
    (l.atualizar_estado agora).nome = l.nome := by
  unfold Leilao.atualizar_estado
  repeat' split <;> try rfl

theorem atualizar_estado_lance_minimo (l : Leilao) (agora : Int) :
    (l.atualizar_estado agora).lance_minimo = l.lance_minimo := by
  unfold Leilao.atualizar_estado
  repeat' split <;> try rfl

theorem atualizar_estado_data_inicio (l : Leilao) (agora : Int) :
    (l.atualizar_estado agora).data_inicio = l.data_inicio := by
  unfold Leilao.atualizar_estado
  repeat' split <;> try rfl

theorem atualizar_estado_data_termino (l : Leilao) (agora : Int) :
    (l.atualizar_estado agora).data_termino = l.data_termino := by
  unfold Leilao.atualizar_estado
  repeat' split <;> try rfl

theorem atualizar_estado_finalizado (l : Leilao) (agora : Int)
    (h : l._estado = .FINALIZADO) : l.atualizar_estado agora = l := by
  unfold Leilao.atualizar_estado
  simp [h]

/-! ## Characterisation of the Python `max`/`min` by key -/

theorem maxLanceValor_eq_none_iff (log : List Lance) :
    maxLanceValor log = none ↔ log = [] := by
  cases log <;> simp [maxLanceValor]

theorem minLanceValor_eq_none_iff (log : List Lance) :
    minLanceValor log = none ↔ log = [] := by
  cases log <;> simp [minLanceValor]

theorem foldl_max_char (xs : List Lance) : ∀ a : Lance,
    xs.foldl (fun best b => if b.valor > best.valor then b else best) a =
      (match maxLanceValor xs with
       | none => a
       | some m => if m.valor > a.valor then m else a) := by
  induction xs with
  | nil => intro a; rfl
  | cons y ys ih =>
    intro a
    simp only [List.foldl_cons]
    rw [ih]
    have hy : maxLanceValor (y :: ys) =
        some (ys.foldl (fun best b => if b.valor > best.valor then b else best) y) := rfl
    rw [hy, ih y]
    cases hys : maxLanceValor ys with
    | none => simp
    | some m =>
      simp only []
      split_ifs with h1 h2 h3 h4 h5 <;> try rfl
      all_goals simp_all
      all_goals linarith

theorem maxLanceValor_cons (y : Lance) (ys : List Lance) :
    maxLanceValor (y :: ys) =
      some (match maxLanceValor ys with
            | none => y
            | some m => if m.valor > y.valor then m else y) := by
  have : maxLanceValor (y :: ys) =
      some (ys.foldl (fun best b => if b.valor > best.valor then b else best) y) := rfl
  rw [this, foldl_max_char]

theorem foldl_min_char (xs : List Lance) : ∀ a : Lance,
    xs.foldl (fun best b => if b.valor < best.valor then b else best) a =
      (match minLanceValor xs with
       | none => a
       | some m => if m.valor < a.valor then m else a) := by
  induction xs with
  | nil => intro a; rfl
  | cons y ys ih =>
    intro a
    simp only [List.foldl_cons]
    rw [ih]
    have hy : minLanceValor (y :: ys) =
        some (ys.foldl (fun best b => if b.valor < best.valor then b else best) y) := rfl
    rw [hy, ih y]
    cases hys : minLanceValor ys with
    | none => simp
    | some m =>
      simp only []
      split_ifs with h1 h2 h3 h4 h5 <;> try rfl
      all_goals simp_all
      all_goals linarith

theorem minLanceValor_cons (y : Lance) (ys : List Lance) :
    minLanceValor (y :: ys) =
      some (match minLanceValor ys with
            | none => y
            | some m => if m.valor < y.valor then m else y) := by
  have : minLanceValor (y :: ys) =
      some (ys.foldl (fun best b => if b.valor < best.valor then b else best) y) := rfl
  rw [this, foldl_min_char]

/-- The bid `m` is the maximum-amount bid of `log`, ties broken by first
occurrence: everything in `log` has amount ≤ `m.valor`, and everything
strictly before `m`'s occurrence has amount strictly below it. -/
def IsFirstMax (log : List Lance) (m : Lance) : Prop :=
  ∃ pre suf, log = pre ++ m :: suf ∧ (∀ b ∈ log, b.valor ≤ m.valor) ∧
    ∀ b ∈ pre, b.valor < m.valor

/-- The bid `m` is the minimum-amount bid of `log`, ties broken by first
occurrence. -/
def IsFirstMin (log : List Lance) (m : Lance) : Prop :=
  ∃ pre suf, log = pre ++ m :: suf ∧ (∀ b ∈ log, m.valor ≤ b.valor) ∧
    ∀ b ∈ pre, m.valor < b.valor

theorem maxLanceValor_isFirstMax : ∀ {log : List Lance} {m : Lance},
    maxLanceValor log = some m → IsFirstMax log m := by
  intro log
  induction log with
  | nil => intro m h; simp [maxLanceValor] at h
  | cons y ys ih =>
    intro m h
    rw [maxLanceValor_cons] at h
    cases hys : maxLanceValor ys with
    | none =>
      have hempty : ys = [] := (maxLanceValor_eq_none_iff ys).mp hys
      subst hempty
      rw [hys] at h
      simp only [Option.some.injEq] at h
      subst h
      exact ⟨[], [], rfl, by simp, by simp⟩
    | some m' =>
      rw [hys] at h
      simp only [Option.some.injEq] at h
      obtain ⟨pre, suf, hsplit, hmax, hpre⟩ := ih hys
      by_cases hgt : m'.valor > y.valor
      · rw [if_pos hgt] at h
        subst h
        refine ⟨y :: pre, suf, by rw [hsplit, List.cons_append], ?_, ?_⟩
        · intro b hb
          rcases List.mem_cons.mp hb with hb | hb
          · subst hb; linarith
          · exact hmax b hb
        · intro b hb
          rcases List.mem_cons.mp hb with hb | hb
          · subst hb; linarith
          · exact hpre b hb
      · rw [if_neg hgt] at h
        subst h
        push_neg at hgt
        refine ⟨[], ys, rfl, ?_, by simp⟩
        intro b hb
        rcases List.mem_cons.mp hb with hb | hb
        · subst hb; exact le_rfl
        · exact le_trans (hmax b hb) hgt


theorem minLanceValor_isFirstMin : ∀ {log : List Lance} {m : Lance},
    minLanceValor log = some m → IsFirstMin log m := by
  intro log
  induction log with
  | nil => intro m h; simp [minLanceValor] at h
  | cons y ys ih =>
    intro m h
    rw [minLanceValor_cons] at h
    cases hys : minLanceValor ys with
    | none =>
      have hempty : ys = [] := (minLanceValor_eq_none_iff ys).mp hys
      subst hempty
      rw [hys] at h
      simp only [Option.some.injEq] at h
      subst h
      exact ⟨[], [], rfl, by simp, by simp⟩
    | some m' =>
      rw [hys] at h
      simp only [Option.some.injEq] at h
      obtain ⟨pre, suf, hsplit, hmin, hpre⟩ := ih hys
      by_cases hlt : m'.valor < y.valor
      · rw [if_pos hlt] at h
        subst h
        refine ⟨y :: pre, suf, by rw [hsplit, List.cons_append], ?_, ?_⟩
        · intro b hb
          rcases List.mem_cons.mp hb with hb | hb
          · subst hb; linarith
          · exact hmin b hb
        · intro b hb
          rcases List.mem_cons.mp hb with hb | hb
          · subst hb; linarith
          · exact hpre b hb
      · rw [if_neg hlt] at h
        subst h
        push_neg at hlt
        refine ⟨[], ys, rfl, ?_, by simp⟩
        intro b hb
        rcases List.mem_cons.mp hb with hb | hb
        · subst hb; exact le_rfl
        · exact le_trans hlt (hmin b hb)

/-! ## Idempotence of `atualizar_estado` -/

theorem atualizar_estado_idem (l : Leilao) (agora : Int) :
    (l.atualizar_estado agora).atualizar_estado agora = l.atualizar_estado agora := by
  by_cases hf : l._estado = .FINALIZADO
  · rw [atualizar_estado_finalizado l agora hf, atualizar_estado_finalizado l agora hf]
  · unfold Leilao.atualizar_estado
    rw [if_neg hf]
    by_cases h1 : agora < l.data_inicio
    · simp [h1]
    · rw [if_neg h1]
      by_cases h2 : l.data_inicio ≤ agora ∧ agora < l.data_termino
      · simp [h1, h2]
      · rw [if_neg h2]
        have h3 : agora ≥ l.data_termino := by
          push_neg at h1 h2
          omega
        rw [if_pos h3]
        by_cases h4 : l._lances = []
        · simp [h3, h4, h1, h2]
        · cases hmax : maxLanceValor l._lances with
          | none =>
            exact absurd ((maxLanceValor_eq_none_iff _).mp hmax) h4
          | some maior => simp [h4, hmax]

theorem estado_atualizar_estado (l : Leilao) (agora : Int) :
    (l.atualizar_estado agora).estado agora = (l.atualizar_estado agora)._estado := by
  unfold Leilao.estado
  rw [atualizar_estado_idem]

/-! ## Witness fixtures: two participants and a small auction history -/

def pA : Participante := ⟨"A", "111", "a@x.com", false⟩
def pB : Participante := ⟨"B", "222", "b@x.com", false⟩
def lanceA : Lance := ⟨pA, 110⟩
def lanceB : Lance := ⟨pB, 120⟩

/-- An open auction (window [10, 20), minimum 100) holding the two
admitted bids of the fixtures; its state was last derived at time 11. -/
def leilaoW : Leilao :=
  ⟨"item", 100, 10, 20, [lanceA, lanceB], .ABERTO, none⟩

/-- An empty open auction with the same window. -/
def leilaoVazio : Leilao :=
  ⟨"item", 100, 10, 20, [], .ABERTO, none⟩

/-! ## Claim C1 -/

/-- C1: for every auction not already Finalized (and satisfying the data
model invariant `startTime < endTime`), re-deriving the state with clock
value `agora` yields INATIVO when `agora < data_inicio`; ABERTO when
`data_inicio ≤ agora < data_termino`; and when `agora ≥ data_termino`,
FINALIZADO with the winner set to the bidder of the maximum-amount bid
(first occurrence on ties) if the bid log is non-empty, or EXPIRADO if it
is empty. Being stated for every non-FINALIZADO starting state, this
covers re-deriving an EXPIRADO auction with an earlier clock back to
ABERTO or INATIVO. -/
theorem claim_C1_atualizar_estado_tabela (l : Leilao) (agora : Int)
    (h : l._estado ≠ .FINALIZADO) (hwf : l.data_inicio < l.data_termino) :
    (agora < l.data_inicio → (l.atualizar_estado agora)._estado = .INATIVO) ∧
    (l.data_inicio ≤ agora → agora < l.data_termino →
      (l.atualizar_estado agora)._estado = .ABERTO) ∧
    (l.data_termino ≤ agora → l._lances ≠ [] →
      (l.atualizar_estado agora)._estado = .FINALIZADO ∧
      ∃ m, IsFirstMax l._lances m ∧
        (l.atualizar_estado agora)._ganhador = some m.participante) ∧
    (l.data_termino ≤ agora → l._lances = [] →
      (l.atualizar_estado agora)._estado = .EXPIRADO) := by
  refine ⟨?_, ?_, ?_, ?_⟩
  · intro h1
    unfold Leilao.atualizar_estado
    simp [h, h1]
  · intro h1 h2
    have hn1 : ¬ agora < l.data_inicio := not_lt.mpr h1
    unfold Leilao.atualizar_estado
    simp [h, hn1, h1, h2]
  · intro h1 h2
    have hn1 : ¬ agora < l.data_inicio := by omega
    have hn2 : ¬ (l.data_inicio ≤ agora ∧ agora < l.data_termino) := by omega
    have h3 : agora ≥ l.data_termino := h1
    cases hmax : maxLanceValor l._lances with
    | none => exact absurd ((maxLanceValor_eq_none_iff _).mp hmax) h2
    | some maior =>
      constructor
      · unfold Leilao.atualizar_estado
        simp [h, hn1, hn2, h3, h2, hmax]
      · refine ⟨maior, maxLanceValor_isFirstMax hmax, ?_⟩
        unfold Leilao.atualizar_estado
        simp [h, hn1, hn2, h3, h2, hmax]
  · intro h1 h2
    have hn1 : ¬ agora < l.data_inicio := by omega
    have hn2 : ¬ (l.data_inicio ≤ agora ∧ agora < l.data_termino) := by omega
    unfold Leilao.atualizar_estado
    simp [h, hn1, hn2, h1, h2]

/-- Witness for C1: the fixture auction, re-derived at time 25 (after its
end), finalizes with winner B. -/
theorem claim_C1_witness :
    leilaoW._estado ≠ .FINALIZADO ∧ leilaoW.data_inicio < leilaoW.data_termino ∧
    ((25 < leilaoW.data_inicio → (leilaoW.atualizar_estado 25)._estado = .INATIVO) ∧
     (leilaoW.data_inicio ≤ 25 → (25:Int) < leilaoW.data_termino →
       (leilaoW.atualizar_estado 25)._estado = .ABERTO) ∧
     (leilaoW.data_termino ≤ 25 → leilaoW._lances ≠ [] →
       (leilaoW.atualizar_estado 25)._estado = .FINALIZADO ∧
       ∃ m, IsFirstMax leilaoW._lances m ∧
         (leilaoW.atualizar_estado 25)._ganhador = some m.participante) ∧
     (leilaoW.data_termino ≤ 25 → leilaoW._lances = [] →
       (leilaoW.atualizar_estado 25)._estado = .EXPIRADO)) :=
  ⟨by decide, by decide, claim_C1_atualizar_estado_tabela leilaoW 25 (by decide) (by decide)⟩

/-! ## Claim C8 -/

/-- C8: running the state-derivation step twice in succession with the
same clock value yields the same state (indeed the same auction record)
as running it once, and neither run changes the bid log. -/
theorem claim_C8_idempotencia (l : Leilao) (agora : Int) :
    (l.atualizar_estado agora).atualizar_estado agora = l.atualizar_estado agora ∧
    (l.atualizar_estado agora)._lances = l._lances ∧
    ((l.atualizar_estado agora).atualizar_estado agora)._lances = l._lances := by
  refine ⟨atualizar_estado_idem l agora, atualizar_estado_lances l agora, ?_⟩
  rw [atualizar_estado_idem]
  exact atualizar_estado_lances l agora

/-! ## Claim C2 -/

/-- Reachable-state invariant: in a FINALIZADO auction, the bid log is
non-empty and `_ganhador` holds the bidder of the maximum-amount bid.
`atualizar_estado` establishes this when it finalizes and every operation
preserves it. -/
def BemFormado (l : Leilao) : Prop :=
  l._estado = .FINALIZADO →
    l._lances ≠ [] ∧
    l._ganhador = (maxLanceValor l._lances).map Lance.participante

instance (l : Leilao) : Decidable (BemFormado l) :=
  inferInstanceAs (Decidable (l._estado = .FINALIZADO →
    l._lances ≠ [] ∧
    l._ganhador = (maxLanceValor l._lances).map Lance.participante))

theorem maxLanceValor_isSome (log : List Lance) (h : log ≠ []) :
    ∃ m, maxLanceValor log = some m := by
  cases hm : maxLanceValor log with
  | none => exact absurd ((maxLanceValor_eq_none_iff log).mp hm) h
  | some m => exact ⟨m, rfl⟩

theorem atualizar_estado_fin_of_ne (l : Leilao) (agora : Int)
    (h : l._estado ≠ .FINALIZADO)
    (hfin : (l.atualizar_estado agora)._estado = .FINALIZADO) :
    l._lances ≠ [] ∧
    (l.atualizar_estado agora)._ganhador = (maxLanceValor l._lances).map Lance.participante := by
  unfold Leilao.atualizar_estado at hfin ⊢
  rw [if_neg h] at hfin ⊢
  by_cases h1 : agora < l.data_inicio
  · simp [h1] at hfin
  · rw [if_neg h1] at hfin ⊢
    by_cases h2 : l.data_inicio ≤ agora ∧ agora < l.data_termino
    · simp [h2] at hfin
    · rw [if_neg h2] at hfin ⊢
      by_cases h3 : agora ≥ l.data_termino
      · rw [if_pos h3] at hfin ⊢
        by_cases h4 : l._lances = []
        · simp [h4] at hfin
        · refine ⟨h4, ?_⟩
          obtain ⟨m, hm⟩ := maxLanceValor_isSome l._lances h4
          simp [h4, hm]
      · rw [if_neg h3] at hfin
        exact absurd hfin h

theorem bemFormado_atualizar (l : Leilao) (agora : Int) (h : BemFormado l) :
    BemFormado (l.atualizar_estado agora) := by
  intro hfin
  by_cases hf : l._estado = .FINALIZADO
  · rw [atualizar_estado_finalizado l agora hf]
    rw [atualizar_estado_finalizado l agora hf] at hfin
    exact h hfin
  · obtain ⟨hne, hg⟩ := atualizar_estado_fin_of_ne l agora hf hfin
    rw [atualizar_estado_lances]
    exact ⟨hne, hg⟩

/-- C2: once FINALIZADO, re-deriving the state with any clock value
leaves the whole auction record (state and winner included) unchanged;
and on any well-formed auction the `ganhador` query returns a participant
iff the (re-derived) state is FINALIZADO, that participant being the
bidder of the maximum-amount bid of the log (first occurrence on ties). -/
theorem claim_C2_finalizado_permanente (l : Leilao) (agora : Int) :
    (l._estado = .FINALIZADO → l.atualizar_estado agora = l) ∧
    (BemFormado l →
      (((l.ganhador agora).isSome ↔ (l.atualizar_estado agora)._estado = .FINALIZADO) ∧
       ∀ p, l.ganhador agora = some p →
         ∃ m, IsFirstMax l._lances m ∧ p = m.participante)) := by
  refine ⟨atualizar_estado_finalizado l agora, ?_⟩
  intro hbf
  unfold Leilao.ganhador
  by_cases hfin : (l.atualizar_estado agora)._estado = .FINALIZADO
  · have hgan : (l.atualizar_estado agora)._ganhador =
        (maxLanceValor l._lances).map Lance.participante := by
      by_cases hf : l._estado = .FINALIZADO
      · rw [atualizar_estado_finalizado l agora hf]
        exact (hbf hf).2
      · exact (atualizar_estado_fin_of_ne l agora hf hfin).2
    have hne : l._lances ≠ [] := by
      by_cases hf : l._estado = .FINALIZADO
      · exact (hbf hf).1
      · exact (atualizar_estado_fin_of_ne l agora hf hfin).1
    obtain ⟨m, hm⟩ := maxLanceValor_isSome l._lances hne
    constructor
    · simp [hfin, hgan, hm]
    · intro p hp
      rw [if_pos hfin, hgan, hm] at hp
      simp only [Option.map_some', Option.some.injEq] at hp
      exact ⟨m, maxLanceValor_isFirstMax hm, hp.symm⟩
  · constructor
    · simp [hfin]
    · intro p hp
      rw [if_neg hfin] at hp
      exact absurd hp (by simp)

/-- Witness for C2: the fixture auction finalized at time 25 is well
formed; its record is unchanged by re-derivation at time 5, its winner
query is defined, and the winner is the maximum-amount bidder. -/
theorem claim_C2_witness :
    (leilaoW.atualizar_estado 25).atualizar_estado 5 = leilaoW.atualizar_estado 25 ∧
    (((leilaoW.atualizar_estado 25).ganhador 5).isSome ↔
      ((leilaoW.atualizar_estado 25).atualizar_estado 5)._estado = .FINALIZADO) ∧
    ∀ p, (leilaoW.atualizar_estado 25).ganhador 5 = some p →
      ∃ m, IsFirstMax (leilaoW.atualizar_estado 25)._lances m ∧ p = m.participante :=
  ⟨(claim_C2_finalizado_permanente (leilaoW.atualizar_estado 25) 5).1 (by decide),
   ((claim_C2_finalizado_permanente (leilaoW.atualizar_estado 25) 5).2 (by decide)).1,
   ((claim_C2_finalizado_permanente (leilaoW.atualizar_estado 25) 5).2 (by decide)).2⟩

/-! ## Claim C5 -/

/-- C5: when the re-derived state is not ABERTO, `propor_lance` fails with
`LeilaoInvalido` carrying that state (the Python message interpolates
`self.estado.name`), for every argument — including `none`, the model of
an object that is not a `Lance`, which shows that the state check runs
before the `isinstance` (TypeError) check. -/
theorem claim_C5_estado_nao_aberto (l : Leilao) (agora : Int) (lanceArg : Option Lance)
    (h : (l.atualizar_estado agora)._estado ≠ .ABERTO) :
    (l.propor_lance agora lanceArg).erro =
      some (.leilaoInvalido (l.atualizar_estado agora)._estado) := by
  unfold Leilao.propor_lance
  simp only [estado_atualizar_estado]
  rw [if_pos h]

/-- Witness for C5: an ill-typed argument proposed at time 5 (before the
window) fails with `LeilaoInvalido INATIVO`, not with the type error. -/
theorem claim_C5_witness :
    (leilaoW.propor_lance 5 none).erro =
      some (.leilaoInvalido (leilaoW.atualizar_estado 5)._estado) ∧
    (leilaoW.atualizar_estado 5)._estado = .INATIVO :=
  ⟨claim_C5_estado_nao_aberto leilaoW 5 none (by decide), by decide⟩

/-! ## Claim C4 -/

/-- Stated from the spec (§4.2), for comparison with the code: the
rejection reason of a structurally valid bid on an ABERTO auction,
checked in the spec's precedence order; `none` means the bid is
admitted. -/
def motivoSegundoSpec (l : Leilao) (lance : Lance) : Option Motivo :=
  if lance.valor < l.lance_minimo then some .abaixoDoMinimo
  else match l._lances.getLast? with
    | some ultimo =>
      if lance.valor ≤ ultimo.valor then some .naoMaiorQueUltimo
      else if lance.participante.peq ultimo.participante then some .doisLancesSeguidos
      else none
    | none => none

theorem pode_receber_lance_char (l : Leilao) (agora : Int)
    (p : Participante) (v : Rat) (hopen : l.estado agora = .ABERTO) :
    l.pode_receber_lance agora p v =
      (if v < l.lance_minimo then false
       else match l._lances.getLast? with
            | none => true
            | some ultimo =>
              if v ≤ ultimo.valor then false
              else if p.peq ultimo.participante then false
              else true) := by
  unfold Leilao.pode_receber_lance
  rw [if_neg (by simp [hopen])]
  by_cases hv : v < l.lance_minimo
  · simp [hv]
  · rw [if_neg hv, if_neg hv]
    by_cases hl : l._lances = []
    · simp [hl]
    · rw [if_neg hl]

theorem claim_C4_motivos (l : Leilao) (agora : Int) (lance : Lance)
    (hopen : (l.atualizar_estado agora)._estado = .ABERTO) :
    ((l.propor_lance agora (some lance)).erro =
       (motivoSegundoSpec (l.atualizar_estado agora) lance).map .lanceInvalido) ∧
    (∀ m, (l.propor_lance agora (some lance)).erro = some (.lanceInvalido m) →
       m ≠ .desconhecido) ∧
    ((l.atualizar_estado agora)._lances = [] →
      (l.atualizar_estado agora).lance_minimo ≤ lance.valor →
      (l.propor_lance agora (some lance)).erro = none) := by
  have hopen' : (l.atualizar_estado agora).estado agora = .ABERTO := by
    rw [estado_atualizar_estado]; exact hopen
  have hmain : (l.propor_lance agora (some lance)).erro =
      (motivoSegundoSpec (l.atualizar_estado agora) lance).map .lanceInvalido := by
    unfold Leilao.propor_lance
    simp only [estado_atualizar_estado]
    rw [if_neg (by simp [hopen])]
    rw [pode_receber_lance_char _ agora _ _ hopen']
    unfold motivoSegundoSpec
    by_cases hv : lance.valor < (l.atualizar_estado agora).lance_minimo
    · simp [hv]
    · rw [if_neg hv, if_neg hv]
      cases hlast : (l.atualizar_estado agora)._lances.getLast? with
      | none =>
        have hl : (l.atualizar_estado agora)._lances = [] :=
          List.getLast?_eq_none_iff.mp hlast
        simp [hl, hlast, hv]
      | some ultimo =>
        have hl : (l.atualizar_estado agora)._lances ≠ [] := by
          intro hc
          rw [hc] at hlast
          simp at hlast
        by_cases hvu : lance.valor ≤ ultimo.valor
        · simp [hlast, hvu, hl, hv]
        · by_cases hpq : lance.participante.peq ultimo.participante
          · simp [hlast, hvu, hpq, hl, hv]
          · simp [hlast, hvu, hpq, hl, hv]
  refine ⟨hmain, ?_, ?_⟩
  · intro m hm
    rw [hmain] at hm
    unfold motivoSegundoSpec at hm
    by_cases hv : lance.valor < (l.atualizar_estado agora).lance_minimo
    · rw [if_pos hv] at hm
      simp only [Option.map_some, Option.map_some', Option.some.injEq,
        ErroLance.lanceInvalido.injEq] at hm
      subst hm
      decide
    · rw [if_neg hv] at hm
      cases hlast : (l.atualizar_estado agora)._lances.getLast? with
      | none =>
        rw [hlast] at hm
        simp at hm
      | some ultimo =>
        rw [hlast] at hm
        by_cases hvu : lance.valor ≤ ultimo.valor
        · simp [hvu] at hm
          subst hm
          decide
        · by_cases hpq : lance.participante.peq ultimo.participante
          · simp [hvu, hpq] at hm
            subst hm
            decide
          · simp [hvu, hpq] at hm
  · intro hempty hmin
    rw [hmain]
    unfold motivoSegundoSpec
    rw [if_neg (not_lt.mpr hmin)]
    rw [List.getLast?_eq_none_iff.mpr hempty]
    rfl

/-- A below-minimum bid used by the C4 witness. -/
def lanceB90 : Lance := ⟨pB, 90⟩

/-- Witness for C4: on the open fixture auction, the bid of 90 by B is
rejected with reason "below minimum", matching the spec's precedence
function. -/
theorem claim_C4_witness :
    ((leilaoW.propor_lance 11 (some lanceB90)).erro =
       (motivoSegundoSpec (leilaoW.atualizar_estado 11) lanceB90).map .lanceInvalido) ∧
    (∀ m, (leilaoW.propor_lance 11 (some lanceB90)).erro = some (.lanceInvalido m) →
       m ≠ .desconhecido) ∧
    ((leilaoW.atualizar_estado 11)._lances = [] →
      (leilaoW.atualizar_estado 11).lance_minimo ≤ lanceB90.valor →
      (leilaoW.propor_lance 11 (some lanceB90)).erro = none) :=
  claim_C4_motivos leilaoW 11 lanceB90 (by decide)

/-! ## Claim C9 -/

/-- The bid as it looks after a successful admission: same bidder keys and
amount, with the has-bid flag set by `marcar_como_ofertante`. -/
def lanceMarcado (lance : Lance) : Lance :=
  { lance with participante := lance.participante.marcar_como_ofertante }

/-- C9: when `propor_lance` fails (with any of the three errors) the bid
log is unchanged and the proposed bid object — including its bidder's
has-bid flag — is unchanged; the append and the flagging happen exactly
on success, after all checks pass. -/
theorem claim_C9_falha_sem_efeito (l : Leilao) (agora : Int) (lanceArg : Option Lance) :
    ((l.propor_lance agora lanceArg).erro.isSome →
      (l.propor_lance agora lanceArg).leilao._lances = l._lances ∧
      (l.propor_lance agora lanceArg).lanceDepois = lanceArg) ∧
    ((l.propor_lance agora lanceArg).erro = none →
      ∃ lance, lanceArg = some lance ∧
        (l.propor_lance agora lanceArg).leilao._lances = l._lances ++ [lanceMarcado lance] ∧
        (l.propor_lance agora lanceArg).lanceDepois = some (lanceMarcado lance) ∧
        (lanceMarcado lance).participante.possui_lances = true) := by
  simp only [Leilao.propor_lance, estado_atualizar_estado]
  by_cases h1 : (l.atualizar_estado agora)._estado = .ABERTO
  · rw [if_neg (by simp [h1])]
    cases lanceArg with
    | none =>
      refine ⟨fun _ => ⟨atualizar_estado_lances l agora, rfl⟩, fun hc => ?_⟩
      exact Option.noConfusion hc
    | some lance =>
      simp only []
      by_cases h2 : (l.atualizar_estado agora).pode_receber_lance agora
          lance.participante lance.valor
      · rw [if_neg (by simpa using h2)]
        refine ⟨fun hc => ?_, fun _ => ⟨lance, rfl, ?_, rfl, rfl⟩⟩
        · exact Bool.noConfusion hc
        · simp [atualizar_estado_lances, lanceMarcado]
      · rw [if_pos (by simpa using h2)]
        refine ⟨fun _ => ⟨atualizar_estado_lances l agora, rfl⟩, fun hc => ?_⟩
        exact Option.noConfusion hc
  · rw [if_pos (by simp [h1])]
    refine ⟨fun _ => ⟨atualizar_estado_lances l agora, rfl⟩, fun hc => ?_⟩
    exact Option.noConfusion hc

/-- Witness for C9: the rejected bid of 90 by B at time 11 leaves the
fixture auction's log and the bid object untouched. -/
theorem claim_C9_witness :
    (leilaoW.propor_lance 11 (some lanceB90)).leilao._lances = leilaoW._lances ∧
    (leilaoW.propor_lance 11 (some lanceB90)).lanceDepois = some lanceB90 :=
  (claim_C9_falha_sem_efeito leilaoW 11 (some lanceB90)).1 (by decide)

/-! ## Claim C3 -/

/-- The invariant the admission predicate maintains on the bid log: every
bid's amount is at least the minimum, amounts are strictly increasing
along the log, and no two consecutive bids share a bidder (bidder
equality being `Participante.peq`). -/
def LogAdmissivel (minimo : Rat) (log : List Lance) : Prop :=
  (∀ b ∈ log, minimo ≤ b.valor) ∧
  log.Chain' (fun a b => a.valor < b.valor ∧ a.participante.peq b.participante = false)

/-- A kernel-reducible decision procedure for `Chain'`, so that concrete
instances of the invariant can be checked by `decide`. -/
def decidableChainRec {α : Type} (R : α → α → Prop) [DecidableRel R] :
    ∀ l : List α, Decidable (List.Chain' R l)
  | [] => isTrue List.chain'_nil
  | [a] => isTrue (List.chain'_singleton a)
  | a :: b :: l =>
    haveI := decidableChainRec R (b :: l)
    decidable_of_iff (R a b ∧ List.Chain' R (b :: l)) List.chain'_cons.symm

instance (minimo : Rat) (log : List Lance) : Decidable (LogAdmissivel minimo log) :=
  haveI : Decidable (log.Chain'
      (fun a b : Lance => a.valor < b.valor ∧ a.participante.peq b.participante = false)) :=
    decidableChainRec _ log
  inferInstanceAs (Decidable ((∀ b ∈ log, minimo ≤ b.valor) ∧
    log.Chain' (fun a b : Lance => a.valor < b.valor ∧ a.participante.peq b.participante = false)))

/-- Bidder equality ignores the has-bid flag set on admission. -/
theorem peq_marcar (q p : Participante) :
    q.peq p.marcar_como_ofertante = q.peq p := rfl

theorem peq_false_symm {p q : Participante} (h : p.peq q = false) : q.peq p = false := by
  simp only [Participante.peq, Bool.or_eq_false_iff, beq_eq_false_iff_ne, ne_eq] at h ⊢
  exact ⟨fun hc => h.1 hc.symm, fun hc => h.2 hc.symm⟩

theorem pode_receber_true_elim (l' : Leilao) (agora : Int) (p : Participante) (v : Rat)
    (h2 : l'.pode_receber_lance agora p v = true) :
    l'.lance_minimo ≤ v ∧
    ∀ u, l'._lances.getLast? = some u → u.valor < v ∧ p.peq u.participante = false := by
  unfold Leilao.pode_receber_lance at h2
  by_cases he : l'.estado agora ≠ .ABERTO
  · rw [if_pos he] at h2
    exact Bool.noConfusion h2
  · rw [if_neg he] at h2
    by_cases hv : v < l'.lance_minimo
    · rw [if_pos hv] at h2
      exact Bool.noConfusion h2
    · rw [if_neg hv] at h2
      refine ⟨not_lt.mp hv, ?_⟩
      intro u hu
      by_cases hl : l'._lances = []
      · rw [hl] at hu
        simp at hu
      · rw [if_neg hl, hu] at h2
        simp only [] at h2
        by_cases hvu : v ≤ u.valor
        · rw [if_pos hvu] at h2
          exact Bool.noConfusion h2
        · rw [if_neg hvu] at h2
          by_cases hp : p.peq u.participante
          · rw [if_pos hp] at h2
            exact Bool.noConfusion h2
          · exact ⟨not_le.mp hvu, by simpa using hp⟩

/-- Outcome analysis of `propor_lance`: either the method fails and the
auction is only re-derived, or it appends the (flagged) bid after the
admission predicate accepted it on the re-derived ABERTO auction. -/
theorem propor_lance_casos (l : Leilao) (agora : Int) (arg : Option Lance) :
    (l.propor_lance agora arg).leilao = l.atualizar_estado agora ∨
    (∃ lance, arg = some lance ∧
      (l.atualizar_estado agora).pode_receber_lance agora
        lance.participante lance.valor = true ∧
      (l.propor_lance agora arg).leilao =
        { l.atualizar_estado agora with
            _lances := (l.atualizar_estado agora)._lances ++ [lanceMarcado lance] }) := by
  simp only [Leilao.propor_lance, estado_atualizar_estado]
  by_cases h1 : (l.atualizar_estado agora)._estado = .ABERTO
  · rw [if_neg (by simp [h1])]
    cases arg with
    | none => exact Or.inl rfl
    | some lance =>
      simp only []
      by_cases h2 : (l.atualizar_estado agora).pode_receber_lance agora
          lance.participante lance.valor
      · rw [if_neg (by simpa using h2)]
        refine Or.inr ⟨lance, rfl, h2, ?_⟩
        simp [lanceMarcado]
      · rw [if_pos (by simpa using h2)]
        exact Or.inl rfl
  · rw [if_pos (by simp [h1])]
    exact Or.inl rfl

theorem propor_preserva_admissivel (l : Leilao) (agora : Int) (arg : Option Lance)
    (h : LogAdmissivel l.lance_minimo l._lances) :
    LogAdmissivel (l.propor_lance agora arg).leilao.lance_minimo
      (l.propor_lance agora arg).leilao._lances := by
  rcases propor_lance_casos l agora arg with hcase | ⟨lance, harg, hpode, hcase⟩
  · rw [hcase, atualizar_estado_lance_minimo, atualizar_estado_lances]
    exact h
  · rw [hcase]
    obtain ⟨hmin, hlast⟩ := pode_receber_true_elim _ agora _ _ hpode
    rw [atualizar_estado_lance_minimo] at hmin
    simp only [atualizar_estado_lance_minimo, atualizar_estado_lances]
    obtain ⟨hall, hchain⟩ := h
    constructor
    · intro b hb
      rcases List.mem_append.mp hb with hb | hb
      · exact hall b hb
      · rcases List.mem_singleton.mp hb with rfl
        exact hmin
    · rw [List.chain'_append]
      refine ⟨hchain, List.chain'_singleton _, ?_⟩
      intro x hx y hy
      rw [atualizar_estado_lances] at hlast
      simp only [List.head?_cons, Option.mem_def, Option.some.injEq] at hy
      obtain ⟨hxv, hxp⟩ := hlast x hx
      subst hy
      exact ⟨hxv, peq_false_symm hxp⟩

/-- Runs a sequence of `propor_lance` calls, each with its own clock
value and argument, keeping the auction that results each time. -/
def aplicar_propostas (l : Leilao) : List (Int × Option Lance) → Leilao
  | [] => l
  | (agora, arg) :: resto => aplicar_propostas (l.propor_lance agora arg).leilao resto

/-- C3: along every sequence of `propor_lance` calls, the bid log keeps
the admission invariant: every bid's amount is ≥ the auction's minimum,
amounts are strictly increasing (each admitted bid beats the previously
admitted one), and no two consecutive bids share a bidder. -/
theorem claim_C3_lances_admitidos (l : Leilao) (props : List (Int × Option Lance))
    (h : LogAdmissivel l.lance_minimo l._lances) :
    LogAdmissivel (aplicar_propostas l props).lance_minimo
      (aplicar_propostas l props)._lances := by
  induction props generalizing l with
  | nil => exact h
  | cons pr resto ih =>
    obtain ⟨agora, arg⟩ := pr
    exact ih _ (propor_preserva_admissivel l agora arg h)

/-- Witness for C3: starting from the empty fixture auction and running
the two admissible proposals of the fixtures, the invariant holds of the
resulting two-bid log. -/
theorem claim_C3_witness :
    LogAdmissivel leilaoVazio.lance_minimo leilaoVazio._lances ∧
    LogAdmissivel
      (aplicar_propostas leilaoVazio [(11, some lanceA), (11, some lanceB)]).lance_minimo
      (aplicar_propostas leilaoVazio [(11, some lanceA), (11, some lanceB)])._lances :=
  ⟨by decide,
   claim_C3_lances_admitidos leilaoVazio [(11, some lanceA), (11, some lanceB)] (by decide)⟩

/-! ## Claim C10 -/

theorem maxLanceValor_eq_getLast (log : List Lance)
    (hchain : log.Chain' (fun a b => a.valor < b.valor)) :
    maxLanceValor log = log.getLast? := by
  induction log with
  | nil => rfl
  | cons y ys ih =>
    rw [maxLanceValor_cons]
    cases ys with
    | nil => rfl
    | cons z zs =>
      haveI : IsTrans Lance (fun a b => a.valor < b.valor) :=
        ⟨fun _ _ _ h1 h2 => lt_trans h1 h2⟩
      have hp : (y :: z :: zs).Pairwise (fun a b => a.valor < b.valor) :=
        List.chain'_iff_pairwise.mp hchain
      have hy : ∀ b ∈ z :: zs, y.valor < b.valor := (List.pairwise_cons.mp hp).1
      rw [ih hchain.tail]
      cases hm : (z :: zs).getLast? with
      | none => simp at hm
      | some m =>
        have hmem : m ∈ z :: zs := List.mem_of_getLast?_eq_some hm
        have hgt : m.valor > y.valor := hy m hmem
        simp only [List.getLast?_cons_cons, hm, if_pos hgt]

/-- C10: for a bid log maintained by `propor_lance` (so satisfying the
admission invariant) the highest bid is the last bid, and when such an
auction finalizes its winner is the bidder of the final admitted bid. -/
theorem claim_C10_maior_e_ultimo (l : Leilao) (agora : Int)
    (hadm : LogAdmissivel l.lance_minimo l._lances) (hne : l._lances ≠ [])
    (hwf : l.data_inicio < l.data_termino) :
    l.maior_lance = l.ultimo_lance ∧
    (l._estado ≠ .FINALIZADO → l.data_termino ≤ agora →
      (l.atualizar_estado agora)._estado = .FINALIZADO ∧
      (l.atualizar_estado agora)._ganhador = l.ultimo_lance.map Lance.participante) := by
  have hchain : l._lances.Chain' (fun a b => a.valor < b.valor) :=
    hadm.2.imp (fun _ _ h => h.1)
  have hmax : l.maior_lance = l.ultimo_lance :=
    maxLanceValor_eq_getLast l._lances hchain
  refine ⟨hmax, fun hf hterm => ?_⟩
  have h1 : ¬ agora < l.data_inicio := by omega
  have h2 : ¬ (l.data_inicio ≤ agora ∧ agora < l.data_termino) := by omega
  obtain ⟨m, hm⟩ := maxLanceValor_isSome l._lances hne
  have hu : l.ultimo_lance = some m := hmax.symm.trans hm
  constructor
  · unfold Leilao.atualizar_estado
    simp [hf, h1, h2, hterm, hne, hm]
  · rw [hu]
    unfold Leilao.atualizar_estado
    simp [hf, h1, h2, hterm, hne, hm]

/-- Witness for C10: in the two-bid fixture auction the highest bid is
the last one, and finalizing at time 25 crowns its bidder B. -/
theorem claim_C10_witness :
    leilaoW.maior_lance = leilaoW.ultimo_lance ∧
    (leilaoW.atualizar_estado 25)._estado = .FINALIZADO ∧
    (leilaoW.atualizar_estado 25)._ganhador = leilaoW.ultimo_lance.map Lance.participante :=
  ⟨(claim_C10_maior_e_ultimo leilaoW 25 (by decide) (by decide) (by decide)).1,
   ((claim_C10_maior_e_ultimo leilaoW 25 (by decide) (by decide) (by decide)).2
     (by decide) (by decide)).1,
   ((claim_C10_maior_e_ultimo leilaoW 25 (by decide) (by decide) (by decide)).2
     (by decide) (by decide)).2⟩

/-! ## Claim C6 -/

/-- C6: `criar` returns an auction exactly when the name is non-empty,
the minimum bid is positive and start < end (timestamps are always valid
in the embedding); a created auction records those dates, so start < end
holds of it; a successful alteration re-validates and preserves
start < end; and neither state derivation nor bid proposal touches the
dates. Failure returns no auction at all (`Except.error`), so no
partially-built entity escapes. -/
theorem claim_C6_datas_validas (nome : String) (lance_minimo : Rat)
    (data_inicio data_termino agora : Int) :
    ((∃ l, Leilao.criar nome lance_minimo data_inicio data_termino agora = .ok l) ↔
      (nome ≠ "" ∧ 0 < lance_minimo ∧ data_inicio < data_termino)) ∧
    (∀ l, Leilao.criar nome lance_minimo data_inicio data_termino agora = .ok l →
      l.data_inicio = data_inicio ∧ l.data_termino = data_termino ∧
      l.data_inicio < l.data_termino) ∧
    (∀ (l l' : Leilao) nn nm ni nt ag2,
      alterar_leilao l nn nm ni nt ag2 = .ok l' → l'.data_inicio < l'.data_termino) ∧
    (∀ (l : Leilao) ag2, (l.atualizar_estado ag2).data_inicio = l.data_inicio ∧
      (l.atualizar_estado ag2).data_termino = l.data_termino) ∧
    (∀ (l : Leilao) ag2 arg, (l.propor_lance ag2 arg).leilao.data_inicio = l.data_inicio ∧
      (l.propor_lance ag2 arg).leilao.data_termino = l.data_termino) := by
  refine ⟨?_, ?_, ?_, ?_, ?_⟩
  · unfold Leilao.criar
    constructor
    · rintro ⟨l, hl⟩
      by_cases h1 : nome = ""
      · rw [if_pos h1] at hl
        exact Except.noConfusion hl
      · rw [if_neg h1] at hl
        by_cases h2 : lance_minimo ≤ 0
        · rw [if_pos h2] at hl
          exact Except.noConfusion hl
        · rw [if_neg h2] at hl
          by_cases h3 : data_inicio ≥ data_termino
          · rw [if_pos h3] at hl
            exact Except.noConfusion hl
          · exact ⟨h1, not_le.mp h2, not_le.mp h3⟩
    · rintro ⟨h1, h2, h3⟩
      rw [if_neg h1, if_neg (not_le.mpr h2), if_neg (not_le.mpr h3)]
      exact ⟨_, rfl⟩
  · intro l hl
    unfold Leilao.criar at hl
    by_cases h1 : nome = ""
    · rw [if_pos h1] at hl
      exact Except.noConfusion hl
    · rw [if_neg h1] at hl
      by_cases h2 : lance_minimo ≤ 0
      · rw [if_pos h2] at hl
        exact Except.noConfusion hl
      · rw [if_neg h2] at hl
        by_cases h3 : data_inicio ≥ data_termino
        · rw [if_pos h3] at hl
          exact Except.noConfusion hl
        · rw [if_neg h3] at hl
          have hl' := Except.ok.inj hl
          subst hl'
          refine ⟨?_, ?_, ?_⟩
          · rw [atualizar_estado_data_inicio]
          · rw [atualizar_estado_data_termino]
          · rw [atualizar_estado_data_inicio, atualizar_estado_data_termino]
            exact not_le.mp h3
  · intro l l' nn nm ni nt ag2 hl
    unfold alterar_leilao at hl
    by_cases h1 : ¬ (l.atualizar_estado ag2).pode_ser_alterado_ou_excluido ag2
    · rw [if_pos h1] at hl
      exact Except.noConfusion hl
    · rw [if_neg h1] at hl
      by_cases h2 : nn.getD (l.atualizar_estado ag2).nome = ""
      · rw [if_pos h2] at hl
        exact Except.noConfusion hl
      · rw [if_neg h2] at hl
        by_cases h3 : nm.getD (l.atualizar_estado ag2).lance_minimo ≤ 0
        · rw [if_pos h3] at hl
          exact Except.noConfusion hl
        · rw [if_neg h3] at hl
          by_cases h4 : ni.getD (l.atualizar_estado ag2).data_inicio ≥
              nt.getD (l.atualizar_estado ag2).data_termino
          · rw [if_pos h4] at hl
            exact Except.noConfusion hl
          · rw [if_neg h4] at hl
            have hl' := Except.ok.inj hl
            subst hl'
            simp only [atualizar_estado_data_inicio, atualizar_estado_data_termino] at h4 ⊢
            omega
  · intro l ag2
    exact ⟨atualizar_estado_data_inicio l ag2, atualizar_estado_data_termino l ag2⟩
  · intro l ag2 arg
    rcases propor_lance_casos l ag2 arg with hcase | ⟨lance, _, _, hcase⟩
    · rw [hcase]
      exact ⟨atualizar_estado_data_inicio l ag2, atualizar_estado_data_termino l ag2⟩
    · rw [hcase]
      exact ⟨atualizar_estado_data_inicio l ag2, atualizar_estado_data_termino l ag2⟩

/-- Witness for C6: creating the fixture auction succeeds and yields
start < end; altering the empty fixture auction (INATIVO at time 5) to a
new window keeps start < end. -/
theorem claim_C6_witness :
    (∃ l, Leilao.criar "item" 100 10 20 11 = .ok l) ∧
    (∀ l, Leilao.criar "item" 100 10 20 11 = .ok l →
      l.data_inicio = 10 ∧ l.data_termino = 20 ∧ l.data_inicio < l.data_termino) ∧
    (∀ l', alterar_leilao leilaoVazio none none (some 30) (some 40) 5 = .ok l' →
      l'.data_inicio < l'.data_termino) :=
  ⟨((claim_C6_datas_validas "item" 100 10 20 11).1).mpr (by decide),
   (claim_C6_datas_validas "item" 100 10 20 11).2.1,
   fun l' h =>
     (claim_C6_datas_validas "item" 100 10 20 11).2.2.1 leilaoVazio l'
       none none (some 30) (some 40) 5 h⟩

/-! ## Claim C7 -/

theorem leValor_trans : ∀ a b c : Lance,
    (fun x y : Lance => decide (x.valor ≤ y.valor)) a b →
    (fun x y : Lance => decide (x.valor ≤ y.valor)) b c →
    (fun x y : Lance => decide (x.valor ≤ y.valor)) a c := by
  intro a b c hab hbc
  simp only [decide_eq_true_eq] at hab hbc ⊢
  exact le_trans hab hbc

theorem leValor_total : ∀ a b : Lance,
    ((fun x y : Lance => decide (x.valor ≤ y.valor)) a b ||
     (fun x y : Lance => decide (x.valor ≤ y.valor)) b a) := by
  intro a b
  simp only [Bool.or_eq_true, decide_eq_true_eq]
  exact le_total a.valor b.valor

theorem lances_filter_valor (l : Leilao) (v : Rat) :
    l.lances.filter (fun b => decide (b.valor = v)) =
      l._lances.filter (fun b => decide (b.valor = v)) := by
  unfold Leilao.lances
  have hpair : (l._lances.filter (fun b => decide (b.valor = v))).Pairwise
      (fun a b : Lance => decide (a.valor ≤ b.valor)) := by
    apply List.pairwise_of_forall_mem_list
    intro a ha b hb
    have hav : a.valor = v := by simpa using (List.mem_filter.mp ha).2
    have hbv : b.valor = v := by simpa using (List.mem_filter.mp hb).2
    simp [hav, hbv]
  have hsub : List.Sublist (l._lances.filter (fun b => decide (b.valor = v)))
      (l._lances.mergeSort (fun a b : Lance => decide (a.valor ≤ b.valor))) :=
    List.sublist_mergeSort leValor_trans leValor_total hpair (List.filter_sublist _)
  have hsub2 := hsub.filter (fun b => decide (b.valor = v))
  have hself : (l._lances.filter (fun b => decide (b.valor = v))).filter
      (fun b => decide (b.valor = v)) =
      l._lances.filter (fun b => decide (b.valor = v)) :=
    List.filter_eq_self.mpr (fun a ha => (List.mem_filter.mp ha).2)
  rw [hself] at hsub2
  have hperm : List.Perm
      ((l._lances.mergeSort (fun a b : Lance => decide (a.valor ≤ b.valor))).filter
        (fun b => decide (b.valor = v)))
      (l._lances.filter (fun b => decide (b.valor = v))) :=
    (List.mergeSort_perm l._lances _).filter _
  exact (hsub2.eq_of_length hperm.length_eq.symm).symm

/-- C7: on a non-empty bid log, `maior_lance` is the maximum-amount bid
(first occurrence on ties), `menor_lance` is the minimum-amount bid
(first occurrence on ties), and the `lances` view is an ascending-by-
amount, stable permutation of the log — the log itself, kept in insertion
order, is untouched (the view is a fresh sorted copy). Stability is the
filter characterisation: for each amount, the view lists the bids of that
amount in log order. -/
theorem claim_C7_consultas (l : Leilao) (h : l._lances ≠ []) :
    (∃ m, l.maior_lance = some m ∧ IsFirstMax l._lances m) ∧
    (∃ m, l.menor_lance = some m ∧ IsFirstMin l._lances m) ∧
    l.lances.Perm l._lances ∧
    l.lances.Pairwise (fun a b => a.valor ≤ b.valor) ∧
    (∀ v : Rat, l.lances.filter (fun b => decide (b.valor = v)) =
      l._lances.filter (fun b => decide (b.valor = v))) := by
  refine ⟨?_, ?_, ?_, ?_, lances_filter_valor l⟩
  · obtain ⟨m, hm⟩ := maxLanceValor_isSome l._lances h
    exact ⟨m, hm, maxLanceValor_isFirstMax hm⟩
  · cases hm : minLanceValor l._lances with
    | none => exact absurd ((minLanceValor_eq_none_iff _).mp hm) h
    | some m => exact ⟨m, hm, minLanceValor_isFirstMin hm⟩
  · exact List.mergeSort_perm l._lances _
  · have hs := List.sorted_mergeSort leValor_trans leValor_total l._lances
    refine hs.imp ?_
    intro a b hab
    simpa using hab

/-- Witness for C7: on the two-bid fixture auction the queries return the
expected first-max, first-min, and the sorted stable view. -/
theorem claim_C7_witness :
    (∃ m, leilaoW.maior_lance = some m ∧ IsFirstMax leilaoW._lances m) ∧
    (∃ m, leilaoW.menor_lance = some m ∧ IsFirstMin leilaoW._lances m) ∧
    leilaoW.lances.Perm leilaoW._lances ∧
    leilaoW.lances.Pairwise (fun a b => a.valor ≤ b.valor) ∧
    (∀ v : Rat, leilaoW.lances.filter (fun b => decide (b.valor = v)) =
      leilaoW._lances.filter (fun b => decide (b.valor = v))) :=
  claim_C7_consultas leilaoW (by decide)

/-! ## `BemFormado` is an invariant of every operation

These lemmas justify the `BemFormado` hypothesis of the C2 theorem: the
constructor establishes it and every operation preserves it, so every
reachable auction satisfies it. -/

theorem pode_receber_aberto (l' : Leilao) (agora : Int) (p : Participante) (v : Rat)
    (h : l'.pode_receber_lance agora p v = true) : l'.estado agora = .ABERTO := by
  unfold Leilao.pode_receber_lance at h
  by_cases he : l'.estado agora ≠ .ABERTO
  · rw [if_pos he] at h
    exact Bool.noConfusion h
  · simpa using he

theorem bemFormado_criar (nome : String) (lmin : Rat) (di dt agora : Int) (l : Leilao)
    (h : Leilao.criar nome lmin di dt agora = .ok l) : BemFormado l := by
  unfold Leilao.criar at h
  by_cases h1 : nome = ""
  · rw [if_pos h1] at h
    exact Except.noConfusion h
  · rw [if_neg h1] at h
    by_cases h2 : lmin ≤ 0
    · rw [if_pos h2] at h
      exact Except.noConfusion h
    · rw [if_neg h2] at h
      by_cases h3 : di ≥ dt
      · rw [if_pos h3] at h
        exact Except.noConfusion h
      · rw [if_neg h3] at h
        have h' := Except.ok.inj h
        subst h'
        apply bemFormado_atualizar
        intro hfin
        simp at hfin

theorem bemFormado_propor (l : Leilao) (agora : Int) (arg : Option Lance)
    (h : BemFormado l) : BemFormado (l.propor_lance agora arg).leilao := by
  rcases propor_lance_casos l agora arg with hc | ⟨lance, _, hpode, hc⟩
  · rw [hc]
    exact bemFormado_atualizar l agora h
  · rw [hc]
    intro hfin
    exfalso
    have haberto := pode_receber_aberto _ agora _ _ hpode
    rw [estado_atualizar_estado] at haberto
    have : (l.atualizar_estado agora)._estado = .FINALIZADO := hfin
    rw [haberto] at this
    exact EstadoLeilao.noConfusion this

theorem bemFormado_alterar (l : Leilao) (nn : Option String) (nm : Option Rat)
    (ni nt : Option Int) (ag : Int) (l' : Leilao)
    (h : alterar_leilao l nn nm ni nt ag = .ok l') : BemFormado l' := by
  unfold alterar_leilao at h
  by_cases h1 : ¬ (l.atualizar_estado ag).pode_ser_alterado_ou_excluido ag
  · rw [if_pos h1] at h
    exact Except.noConfusion h
  · rw [if_neg h1] at h
    by_cases h2 : nn.getD (l.atualizar_estado ag).nome = ""
    · rw [if_pos h2] at h
      exact Except.noConfusion h
    · rw [if_neg h2] at h
      by_cases h3 : nm.getD (l.atualizar_estado ag).lance_minimo ≤ 0
      · rw [if_pos h3] at h
        exact Except.noConfusion h
      · rw [if_neg h3] at h
        by_cases h4 : ni.getD (l.atualizar_estado ag).data_inicio ≥
            nt.getD (l.atualizar_estado ag).data_termino
        · rw [if_pos h4] at h
          exact Except.noConfusion h
        · rw [if_neg h4] at h
          have h' := Except.ok.inj h
          subst h'
          apply bemFormado_atualizar
          intro hfin
          have hpode : (l.atualizar_estado ag).pode_ser_alterado_ou_excluido ag = true := by
            simpa using h1
          unfold Leilao.pode_ser_alterado_ou_excluido at hpode
          rw [estado_atualizar_estado] at hpode
          have : (l.atualizar_estado ag)._estado = .FINALIZADO := hfin
          rw [this] at hpode
          simp at hpode
